import Mathlib

/-!
# Verification of the tealdeer cache directory resolution and page lookup engine

Shallow embedding of `src/cache.rs` (and the page-edit path lookup used by
`src/main.rs`). Filesystem paths are lists of components; the filesystem is a
forest of named trees. Directory entry order in a `dir` node models readdir
order. Environment variables and XDG resolution are explicit parameters.
-/

/-- Operating system type, from `types.rs` (as matched in `Cache::get_platform_dir`). -/
inductive OsType where
  | Linux
  | OsX
  | SunOs
  | Other
deriving DecidableEq, Repr

/-- Error type from `error.rs`, as imported by `cache.rs` and `main.rs`
(`TealdeerError::{UpdateError, CacheError}`), each carrying a message string. -/
inductive TealdeerError where
  | UpdateError (msg : String)
  | CacheError (msg : String)
deriving DecidableEq, Repr

instance {ε α : Type} [DecidableEq ε] [DecidableEq α] : DecidableEq (Except ε α)
  | .ok a, .ok b =>
      match decEq a b with
      | isTrue h => isTrue (by rw [h])
      | isFalse h => isFalse (by intro hh; injection hh; contradiction)
  | .ok _, .error _ => isFalse (by intro h; exact Except.noConfusion h)
  | .error _, .ok _ => isFalse (by intro h; exact Except.noConfusion h)
  | .error e, .error f =>
      match decEq e f with
      | isTrue h => isTrue (by rw [h])
      | isFalse h => isFalse (by intro hh; injection hh; contradiction)

/-- A filesystem node: a regular file or a directory with named children.
Children are listed in readdir order. Names are Lean strings, so the
`to_str` = `None` (non-UTF-8 name) branch of the source is unrepresentable. -/
inductive FSTree where
  | file (name : String)
  | dir (name : String) (children : List FSTree)

/-- The name of a filesystem node. -/
def FSTree.name : FSTree → String
  | .file n => n
  | .dir n _ => n

mutual
/-- Decidable equality on filesystem nodes (the derive handler does not
support this nested inductive). -/
def FSTree.deq : (a b : FSTree) → Decidable (a = b)
  | .file n, .file m =>
      match decEq n m with
      | isTrue h => isTrue (by rw [h])
      | isFalse h => isFalse (fun hh => h (FSTree.file.inj hh))
  | .file _, .dir _ _ => isFalse (fun h => FSTree.noConfusion h)
  | .dir _ _, .file _ => isFalse (fun h => FSTree.noConfusion h)
  | .dir n cs, .dir m ds =>
      match decEq n m, FSTree.deqList cs ds with
      | isTrue h1, isTrue h2 => isTrue (by rw [h1, h2])
      | isFalse h1, _ => isFalse (fun hh => h1 (FSTree.dir.inj hh).1)
      | _, isFalse h2 => isFalse (fun hh => h2 (FSTree.dir.inj hh).2)

/-- Decidable equality on lists of filesystem nodes. -/
def FSTree.deqList : (as bs : List FSTree) → Decidable (as = bs)
  | [], [] => isTrue rfl
  | [], _ :: _ => isFalse (fun h => List.noConfusion h)
  | _ :: _, [] => isFalse (fun h => List.noConfusion h)
  | a :: as, b :: bs =>
      match FSTree.deq a b, FSTree.deqList as bs with
      | isTrue h1, isTrue h2 => isTrue (by rw [h1, h2])
      | isFalse h1, _ => isFalse (fun hh => h1 (List.cons.inj hh).1)
      | _, isFalse h2 => isFalse (fun hh => h2 (List.cons.inj hh).2)
end

instance : DecidableEq FSTree := FSTree.deq

/-- A path is a list of components (the `PathBuf::join` chain). -/
abbrev FsPath := List String

/-- Resolve a path in a forest of trees: follow each component through
directory children; the final component may name a file or a directory. -/
def lookupPath : List FSTree → FsPath → Option FSTree
  | _, [] => none
  | forest, [c] => forest.find? (fun t => t.name == c)
  | forest, c :: rest =>
      match forest.find? (fun t => t.name == c) with
      | some (FSTree.dir _ children) => lookupPath children rest
      | _ => none

/-- The filesystem: a forest of trees at the root. -/
structure FileSystem where
  root : List FSTree

/-- `Path::exists`. -/
def pathExists (fs : FileSystem) (p : FsPath) : Bool :=
  (lookupPath fs.root p).isSome

/-- `Path::is_file`. -/
def isFile (fs : FileSystem) (p : FsPath) : Bool :=
  match lookupPath fs.root p with
  | some (FSTree.file _) => true
  | _ => false

/-- `Path::is_dir`. -/
def isDir (fs : FileSystem) (p : FsPath) : Bool :=
  match lookupPath fs.root p with
  | some (FSTree.dir _ _) => true
  | _ => false

/-- Ambient process state read by `Cache::get_cache_dir`:
the `$TEALDEER_CACHE_DIR` environment variable (already parsed into path
components; `none` models both unset and non-UTF-8, which `env::var` reports
as `Err`), and the XDG cache home for the `tealdeer` prefix (`none` models
`BaseDirectories::with_prefix` failing). -/
structure EnvState where
  tealdeer_cache_dir : Option FsPath
  xdg_cache_home : Option FsPath

/-- The error message for an invalid `$TEALDEER_CACHE_DIR` override
(`cache.rs` lines 38-42); this is the spec's `ResolutionError::InvalidOverride`. -/
def invalidOverrideMsg : String :=
  "Path specified by $TEALDEER_CACHE_DIR does not exist or is not a directory."

/-- The error message when the XDG base directory cannot be determined
(`cache.rs` line 48); this is the spec's `ResolutionError::NotConfigured`. -/
def noXdgMsg : String :=
  "Could not determine XDG base directory."

/-- `Cache::get_cache_dir` (`cache.rs` lines 29-51): if `$TEALDEER_CACHE_DIR`
is set, return it iff it exists and is a directory, else fail; otherwise fall
back to the XDG cache home (no existence check). -/
def get_cache_dir (env : EnvState) (fs : FileSystem) : Except TealdeerError FsPath :=
  match env.tealdeer_cache_dir with
  | some path =>
      if pathExists fs path && isDir fs path then
        .ok path
      else
        .error (.CacheError invalidOverrideMsg)
  | none =>
      match env.xdg_cache_home with
      | some home => .ok home
      | none => .error (.CacheError noXdgMsg)

/-- `Cache::get_platform_dir` (`cache.rs` lines 67-74). -/
def get_platform_dir : OsType → Option String
  | .Linux => some "linux"
  | .OsX => some "osx"
  | .SunOs => none
  | .Other => none

/-- `Cache::find_page` (`cache.rs` lines 77-108): probe the platform-specific
directory first (if the platform maps to one), then the `common` directory;
a `get_cache_dir` error is turned into `none`. -/
def find_page (env : EnvState) (fs : FileSystem) (os : OsType) (name : String) :
    Option FsPath :=
  let page_filename := name ++ ".md"
  match get_cache_dir env fs with
  | .error _ => none
  | .ok cache_dir =>
    let platforms_dir := cache_dir ++ ["tldr-master", "pages"]
    let platformHit : Option FsPath :=
      match get_platform_dir os with
      | some pf =>
          let path := platforms_dir ++ [pf, page_filename]
          if pathExists fs path && isFile fs path then some path else none
      | none => none
    match platformHit with
    | some p => some p
    | none =>
        let path := platforms_dir ++ ["common", page_filename]
        if pathExists fs path && isFile fs path then some path else none

/-- The `should_walk` closure of `Cache::list_pages` (`cache.rs` lines
119-136): directories pass iff named `common` or equal to the platform token;
files always pass. -/
def should_walk (platform_dir : Option String) : FSTree → Bool
  | FSTree.dir name _ =>
      if name == "common" then
        true
      else
        match platform_dir with
        | some platform => name == platform
        | none => false
  | FSTree.file _ => true

mutual
/-- The entries `WalkDir` yields for one entry that passed the filter:
the entry itself, then (for directories) its filtered contents. -/
def walkEntry (pd : Option String) : FSTree → List FSTree
  | FSTree.file n => [FSTree.file n]
  | FSTree.dir n cs => FSTree.dir n cs :: walkFiltered pd cs

/-- The `WalkDir ... .min_depth(1).filter_entry(should_walk)` traversal of
`Cache::list_pages`: depth-first over the entries below the root, yielding
each entry that passes `should_walk` and descending only into passing
directories. -/
def walkFiltered (pd : Option String) : List FSTree → List FSTree
  | [] => []
  | e :: rest =>
      if should_walk pd e then
        walkEntry pd e ++ walkFiltered pd rest
      else
        walkFiltered pd rest
end

/-- Split a character list at its last `.`: `some (before, after)`, or `none`
when no `.` occurs. -/
def splitAtLastDot : List Char → Option (List Char × List Char)
  | [] => none
  | c :: cs =>
      match splitAtLastDot cs with
      | some (pre, post) => some (c :: pre, post)
      | none => if c = '.' then some ([], cs) else none

/-- Rust `Path::file_stem` / `Path::extension` on a single file name:
split at the last `.`; no extension when there is no `.`, or when the only
`.` is the leading character (dot-files). Returns (stem, extension). -/
def fileStemExt (s : String) : String × Option String :=
  match splitAtLastDot s.data with
  | none => (s, none)
  | some ([], _) => (s, none)
  | some (pre, post) => (⟨pre⟩, some ⟨post⟩)

/-- The final `filter_map` of `Cache::list_pages` (`cache.rs` lines 144-152):
keep regular files whose extension (compared after `unwrap_or("")`) is
exactly `md`, and take the file stem as the page name. -/
def pageCandidates (entries : List FSTree) : List String :=
  entries.filterMap fun e =>
    match e with
    | FSTree.file name =>
        let se := fileStemExt name
        if se.2.getD "" == "md" then some se.1 else none
    | FSTree.dir _ _ => none

/-- Rust's `Ord` on `String`: lexicographic comparison of the character
sequences (UTF-8 byte order coincides with code-point order). -/
def charListLe : List Char → List Char → Bool
  | [], _ => true
  | _ :: _, [] => false
  | a :: as, b :: bs =>
      if a = b then charListLe as bs else decide (a < b)

/-- The order used by `Vec::sort` on `Vec<String>`. -/
def strLe (s t : String) : Prop := charListLe s.data t.data = true

instance : DecidableRel strLe :=
  fun s t => inferInstanceAs (Decidable (charListLe s.data t.data = true))

/-- The corresponding strict order. -/
def strLt (s t : String) : Prop := strLe s t ∧ s ≠ t

/-- `Vec::dedup`: remove consecutive duplicate elements. -/
def dedupConsec : List String → List String
  | [] => []
  | [a] => [a]
  | a :: b :: rest =>
      if a = b then dedupConsec (b :: rest) else a :: dedupConsec (b :: rest)

/-- The children of `<cache_dir>/tldr-master/pages`, the starting entries of
the walk (`min_depth(1)` skips the root itself). `WalkDir` over a missing
root or a non-directory yields no entry below depth 1 (a root error is
dropped by `filter_map(e.ok())`), hence the empty list in those cases. -/
def pagesEntries (fs : FileSystem) (cache_dir : FsPath) : List FSTree :=
  match lookupPath fs.root (cache_dir ++ ["tldr-master", "pages"]) with
  | some (FSTree.dir _ cs) => cs
  | _ => []

/-- `Cache::list_pages` (`cache.rs` lines 111-157): propagate `get_cache_dir`
errors via `try!`, walk the filtered tree, collect `.md` stems, sort and
dedup. -/
def list_pages (env : EnvState) (fs : FileSystem) (os : OsType) :
    Except TealdeerError (List String) :=
  match get_cache_dir env fs with
  | .error e => .error e
  | .ok cache_dir =>
      let platform_dir := get_platform_dir os
      let pages := pageCandidates (walkFiltered platform_dir (pagesEntries fs cache_dir))
      .ok (dedupConsec (List.insertionSort strLe pages))

/-- `Cache::last_update` (`cache.rs` lines 53-64): seconds since the
`tldr-master` marker under the cache dir was modified; `none` when the cache
dir cannot be resolved or the marker's metadata cannot be read. `mtimes`
models `fs::metadata(..).mtime()` (`none` = metadata error / absent path),
`now` models `time::now_utc().to_timespec().sec`. -/
def last_update (env : EnvState) (fs : FileSystem) (mtimes : FsPath → Option Int)
    (now : Int) : Option Int :=
  match get_cache_dir env fs with
  | .ok cache_dir =>
      match mtimes (cache_dir ++ ["tldr-master"]) with
      | some mtime => some (now - mtime)
      | none => none
  | .error _ => none

/-- Freshness state from the spec (§4.5). -/
inductive FreshnessState where
  | Fresh
  | Stale (age : Int)
  | Missing
deriving DecidableEq, Repr

/-- The 30-day staleness threshold in seconds (spec §4.5, §8). -/
def MAX_CACHE_AGE : Int := 2592000

/-- Modelled from the spec: `check_freshness` (§4.5). The staleness
classification is not in the sources under `src/` (only `last_update`, which
computes the age, is); the spec fixes the missing part: `Missing` when the
marker cannot be read, `Stale(age)` when `age` strictly exceeds 30 days
(2592000 s), `Fresh` otherwise. -/
def check_freshness (env : EnvState) (fs : FileSystem) (mtimes : FsPath → Option Int)
    (now : Int) : FreshnessState :=
  match last_update env fs mtimes now with
  | none => .Missing
  | some age => if age > MAX_CACHE_AGE then .Stale age else .Fresh

/-- Modelled from the spec: `locate_for_edit` (§4.3), the body of
`Cache::find_page_to_edit` called from `main.rs` line 189 but absent from the
sources under `src/`. It computes the common-directory path
`root/tldr-master/pages/common/<name>.md` exactly as `find_page`'s common
probe does, but performs no existence check; the filesystem argument is taken
(the real function could probe it) and ignored. -/
def locate_for_edit (_fs : FileSystem) (root : FsPath) (name : String) : FsPath :=
  root ++ ["tldr-master", "pages", "common", name ++ ".md"]

/-- A sample cache tree used to instantiate the theorems on concrete inputs:
`cache/tldr-master/pages` holds a `common` and a `linux` directory (both with
`tar.md`), a foreign `windows` directory, a page directly at depth 1, and a
file with a case-mismatched extension. -/
def sampleFs : FileSystem :=
  ⟨[FSTree.dir "cache" [FSTree.dir "tldr-master" [FSTree.dir "pages"
      [FSTree.dir "common" [FSTree.file "tar.md"],
       FSTree.dir "linux" [FSTree.file "tar.md", FSTree.file "ps.md"],
       FSTree.dir "windows" [FSTree.file "win.md"],
       FSTree.file "root.md", FSTree.file "notes.MD"]]]]⟩

/-- Environment with a valid `$TEALDEER_CACHE_DIR` override for `sampleFs`. -/
def sampleEnv : EnvState := ⟨some ["cache"], none⟩

/-- Environment whose `$TEALDEER_CACHE_DIR` override names a missing path. -/
def badEnv : EnvState := ⟨some ["missing"], none⟩

/-! ## Helper lemmas -/

/-- The `exists && is_file` guard used by `find_page` collapses to `is_file`,
since in this filesystem model a path resolving to a file exists. -/
theorem exists_and_isFile (fs : FileSystem) (p : FsPath) :
    (pathExists fs p && isFile fs p) = isFile fs p := by
  unfold pathExists isFile
  cases h : lookupPath fs.root p with
  | none => simp
  | some t => cases t <;> simp

/-- Files always pass the walk filter. -/
theorem should_walk_file (pd : Option String) (n : String) :
    should_walk pd (FSTree.file n) = true := rfl

/-- A directory passes the walk filter iff it is named `common` or matches
the platform token. -/
theorem should_walk_dir_iff (pd : Option String) (n : String) (cs : List FSTree) :
    should_walk pd (FSTree.dir n cs) = true ↔ (n = "common" ∨ pd = some n) := by
  cases pd with
  | none =>
      by_cases h : n = "common" <;> simp [should_walk, h]
  | some platform =>
      by_cases h : n = "common"
      · simp [should_walk, h]
      · simp only [should_walk, beq_iff_eq, h, if_false]
        constructor
        · intro hp
          exact Or.inr (by rw [hp])
        · rintro (hc | hp)
          · exact hc.elim
          · injection hp with hp
            exact hp.symm

/-- Membership in the entries yielded for a single passing entry. -/
theorem mem_walkEntry {pd : Option String} {e x : FSTree} :
    x ∈ walkEntry pd e ↔
      x = e ∨ ∃ n cs, e = FSTree.dir n cs ∧ x ∈ walkFiltered pd cs := by
  cases e with
  | file n => simp [walkEntry]
  | dir n cs =>
      rw [walkEntry]
      simp only [List.mem_cons]
      constructor
      · rintro (h | h)
        · exact Or.inl h
        · exact Or.inr ⟨n, cs, rfl, h⟩
      · rintro (h | ⟨n1, cs1, heq, h⟩)
        · exact Or.inl h
        · injection heq with h1 h2
          subst h1
          subst h2
          exact Or.inr h

/-- Membership in the filtered walk: every yielded entry is produced by some
top-level entry that passes the filter. -/
theorem mem_walkFiltered {pd : Option String} {x : FSTree} :
    ∀ {l : List FSTree},
      x ∈ walkFiltered pd l ↔ ∃ e ∈ l, should_walk pd e = true ∧ x ∈ walkEntry pd e := by
  intro l
  induction l with
  | nil => simp [walkFiltered]
  | cons e rest ih =>
      by_cases h : should_walk pd e = true
      · rw [walkFiltered, if_pos h]
        simp only [List.mem_append, ih, List.mem_cons]
        constructor
        · rintro (hx | ⟨e', he', hw, hx⟩)
          · exact ⟨e, Or.inl rfl, h, hx⟩
          · exact ⟨e', Or.inr he', hw, hx⟩
        · rintro ⟨e', he', hw, hx⟩
          rcases he' with rfl | he'
          · exact Or.inl hx
          · exact Or.inr ⟨e', he', hw, hx⟩
      · rw [walkFiltered, if_neg h]
        rw [ih]
        constructor
        · rintro ⟨e', he', hw, hx⟩
          exact ⟨e', List.mem_cons_of_mem _ he', hw, hx⟩
        · rintro ⟨e', he', hw, hx⟩
          rcases List.mem_cons.mp he' with rfl | he'
          · exact absurd hw h
          · exact ⟨e', he', hw, hx⟩

/-- Membership in the page-name candidates: exactly the stems of regular
files carrying the exact extension `md`. -/
theorem mem_pageCandidates {entries : List FSTree} {s : String} :
    s ∈ pageCandidates entries ↔
      ∃ fname, FSTree.file fname ∈ entries ∧ fileStemExt fname = (s, some "md") := by
  unfold pageCandidates
  rw [List.mem_filterMap]
  constructor
  · rintro ⟨e, he, hsome⟩
    cases e with
    | file fname =>
        refine ⟨fname, he, ?_⟩
        by_cases hext : (fileStemExt fname).2.getD "" == "md"
        · simp only [hext, if_true, Option.some.injEq] at hsome
          have h2 : (fileStemExt fname).2 = some "md" := by
            rcases h : (fileStemExt fname).2 with _ | ext
            · rw [h] at hext; simp at hext
            · rw [h] at hext; simp only [Option.getD, beq_iff_eq] at hext
              rw [hext]
          exact Prod.ext hsome h2
        · simp [hext] at hsome
    | dir n cs => simp at hsome
  · rintro ⟨fname, hmem, hfe⟩
    refine ⟨FSTree.file fname, hmem, ?_⟩
    simp [hfe]

/-- `charListLe` is reflexive. -/
theorem charListLe_refl : ∀ as : List Char, charListLe as as = true
  | [] => rfl
  | a :: as => by
      rw [charListLe, if_pos rfl]
      exact charListLe_refl as

/-- `charListLe` is total. -/
theorem charListLe_total : ∀ as bs : List Char,
    charListLe as bs = true ∨ charListLe bs as = true
  | [], _ => Or.inl rfl
  | _ :: _, [] => Or.inr rfl
  | a :: as, b :: bs => by
      by_cases h : a = b
      · subst h
        rw [charListLe, if_pos rfl, charListLe, if_pos rfl]
        exact charListLe_total as bs
      · rcases lt_or_gt_of_ne h with hlt | hgt
        · refine Or.inl ?_
          rw [charListLe, if_neg h]
          exact decide_eq_true hlt
        · refine Or.inr ?_
          have h' : b ≠ a := fun hh => h hh.symm
          rw [charListLe, if_neg h']
          exact decide_eq_true hgt

/-- `charListLe` is transitive. -/
theorem charListLe_trans : ∀ as bs cs : List Char,
    charListLe as bs = true → charListLe bs cs = true → charListLe as cs = true
  | [], _, _ => by intro _ _; rfl
  | _ :: _, [], _ => by intro h _; simp [charListLe] at h
  | _ :: _, _ :: _, [] => by intro _ h; simp [charListLe] at h
  | a :: as, b :: bs, c :: cs => by
      intro h1 h2
      by_cases hab : a = b
      · subst hab
        rw [charListLe, if_pos rfl] at h1
        by_cases hac : a = c
        · subst hac
          rw [charListLe, if_pos rfl] at h2 ⊢
          exact charListLe_trans as bs cs h1 h2
        · rw [charListLe, if_neg hac] at h2 ⊢
          exact h2
      · rw [charListLe, if_neg hab] at h1
        have hab' : a < b := of_decide_eq_true h1
        have hac : a < c := by
          by_cases hbc : b = c
          · subst hbc
            exact hab'
          · rw [charListLe, if_neg hbc] at h2
            exact lt_trans hab' (of_decide_eq_true h2)
        rw [charListLe, if_neg (ne_of_lt hac)]
        exact decide_eq_true hac

/-- `charListLe` is antisymmetric. -/
theorem charListLe_antisymm : ∀ as bs : List Char,
    charListLe as bs = true → charListLe bs as = true → as = bs
  | [], [] => fun _ _ => rfl
  | [], _ :: _ => by intro _ h; simp [charListLe] at h
  | _ :: _, [] => by intro h _; simp [charListLe] at h
  | a :: as, b :: bs => by
      intro h1 h2
      by_cases hab : a = b
      · subst hab
        rw [charListLe, if_pos rfl] at h1 h2
        rw [charListLe_antisymm as bs h1 h2]
      · rw [charListLe, if_neg hab] at h1
        have hba : b ≠ a := fun hh => hab hh.symm
        rw [charListLe, if_neg hba] at h2
        exact absurd (lt_trans (of_decide_eq_true h1) (of_decide_eq_true h2)) (lt_irrefl a)

theorem strLe_refl (s : String) : strLe s s := charListLe_refl s.data

instance : IsTotal String strLe := ⟨fun s t => charListLe_total s.data t.data⟩

instance : IsTrans String strLe := ⟨fun a b c => charListLe_trans a.data b.data c.data⟩

theorem strLe_antisymm {s t : String} (h1 : strLe s t) (h2 : strLe t s) : s = t := by
  cases s with
  | mk ds =>
    cases t with
    | mk dt =>
      rw [charListLe_antisymm ds dt h1 h2]

instance : IsIrrefl String strLt := ⟨fun _ h => h.2 rfl⟩

instance : IsTrans String strLt :=
  ⟨fun a b c h1 h2 =>
    ⟨charListLe_trans a.data b.data c.data h1.1 h2.1, fun he => by
      subst he
      exact h1.2 (strLe_antisymm h1.1 h2.1)⟩⟩

/-- `dedupConsec` preserves membership. -/
theorem mem_dedupConsec : ∀ (l : List String) (x : String), x ∈ dedupConsec l ↔ x ∈ l
  | [], x => by simp [dedupConsec]
  | [a], x => by simp [dedupConsec]
  | a :: b :: rest, x => by
      by_cases h : a = b
      · rw [dedupConsec, if_pos h, mem_dedupConsec (b :: rest) x]
        subst h
        simp only [List.mem_cons]
        tauto
      · rw [dedupConsec, if_neg h]
        simp only [List.mem_cons, mem_dedupConsec (b :: rest) x]

/-- On a `strLe`-sorted list, `dedupConsec` yields a strictly sorted list. -/
theorem dedupConsec_sorted_lt : ∀ l : List String,
    l.Sorted strLe → (dedupConsec l).Sorted strLt
  | [] => by
      intro _
      simp [dedupConsec]
  | [a] => by
      intro _
      rw [dedupConsec]
      exact List.sorted_singleton a
  | a :: b :: rest => by
      intro hs
      have hs' : (b :: rest).Sorted strLe := (List.sorted_cons.mp hs).2
      have hab : strLe a b := (List.sorted_cons.mp hs).1 b (List.mem_cons_self b rest)
      by_cases h : a = b
      · rw [dedupConsec, if_pos h]
        exact dedupConsec_sorted_lt (b :: rest) hs'
      · rw [dedupConsec, if_neg h, List.sorted_cons]
        refine ⟨?_, dedupConsec_sorted_lt (b :: rest) hs'⟩
        intro y hy
        have hy' : y ∈ b :: rest := (mem_dedupConsec _ y).mp hy
        have hby : strLe b y := by
          rcases List.mem_cons.mp hy' with rfl | hy''
          · exact strLe_refl y
          · exact (List.sorted_cons.mp hs').1 y hy''
        refine ⟨charListLe_trans _ _ _ hab hby, fun he => ?_⟩
        subst he
        exact h (strLe_antisymm hab hby)

/-- Sorting then removing consecutive duplicates preserves membership. -/
theorem mem_sortDedup {l : List String} {x : String} :
    x ∈ dedupConsec (List.insertionSort strLe l) ↔ x ∈ l := by
  rw [mem_dedupConsec]
  exact (List.perm_insertionSort strLe l).mem_iff

/-- `list_pages` on a successfully resolved cache dir. -/
theorem list_pages_ok {env : EnvState} {fs : FileSystem} {os : OsType} {cd : FsPath}
    (h : get_cache_dir env fs = .ok cd) :
    list_pages env fs os = .ok (dedupConsec (List.insertionSort strLe
      (pageCandidates (walkFiltered (get_platform_dir os) (pagesEntries fs cd))))) := by
  unfold list_pages
  rw [h]

/-- `list_pages` propagates resolution errors. -/
theorem list_pages_error {env : EnvState} {fs : FileSystem} {os : OsType}
    {e : TealdeerError} (h : get_cache_dir env fs = .error e) :
    list_pages env fs os = .error e := by
  unfold list_pages
  rw [h]

/-- A path that resolves to a regular file exists. -/
theorem pathExists_of_isFile {fs : FileSystem} {p : FsPath}
    (h : isFile fs p = true) : pathExists fs p = true := by
  unfold isFile at h
  unfold pathExists
  cases hl : lookupPath fs.root p with
  | none =>
      rw [hl] at h
      simp at h
  | some t => simp [hl]

/-- A valid override resolves to exactly the override path. -/
theorem get_cache_dir_ok {env : EnvState} {fs : FileSystem} {p : FsPath}
    (h : env.tealdeer_cache_dir = some p)
    (hgood : (pathExists fs p && isDir fs p) = true) :
    get_cache_dir env fs = .ok p := by
  simp only [get_cache_dir, h]
  rw [if_pos hgood]

/-- An invalid override fails with the invalid-override error. -/
theorem get_cache_dir_invalid {env : EnvState} {fs : FileSystem} {p : FsPath}
    (h : env.tealdeer_cache_dir = some p)
    (hbad : (pathExists fs p && isDir fs p) = false) :
    get_cache_dir env fs = .error (.CacheError invalidOverrideMsg) := by
  simp only [get_cache_dir, h]
  rw [if_neg (by simp [hbad])]

/-- Without an override, the invalid-override error is never produced. -/
theorem get_cache_dir_unset_ne_invalid {env : EnvState} {fs : FileSystem}
    (h : env.tealdeer_cache_dir = none) :
    get_cache_dir env fs ≠ .error (.CacheError invalidOverrideMsg) := by
  unfold get_cache_dir
  rw [h]
  cases hx : env.xdg_cache_home with
  | some home => simp
  | none =>
      intro hc
      injection hc with hc
      injection hc with hc
      exact absurd hc (by decide)

/-- A resolution error makes `find_page` return `none`. -/
theorem find_page_error {env : EnvState} {fs : FileSystem} {os : OsType}
    {name : String} {e : TealdeerError} (h : get_cache_dir env fs = .error e) :
    find_page env fs os name = none := by
  unfold find_page
  rw [h]

/-- When the platform probe hits a regular file, `find_page` returns the
platform-specific path. -/
theorem find_page_platform_hit {env : EnvState} {fs : FileSystem} {os : OsType}
    {name pf : String} {cd : FsPath}
    (hcd : get_cache_dir env fs = .ok cd)
    (hpf : get_platform_dir os = some pf)
    (hfile : isFile fs (cd ++ ["tldr-master", "pages", pf, name ++ ".md"]) = true) :
    find_page env fs os name = some (cd ++ ["tldr-master", "pages", pf, name ++ ".md"]) := by
  unfold find_page
  rw [hcd]
  simp [hpf, hfile, pathExists_of_isFile hfile, List.append_assoc]

/-- When the platform probe misses (or no platform token exists) and the
common probe hits, `find_page` returns the common path; when both miss, it
returns `none`. -/
theorem find_page_common_cases {env : EnvState} {fs : FileSystem} {os : OsType}
    {name : String} {cd : FsPath}
    (hcd : get_cache_dir env fs = .ok cd)
    (hplat : ∀ pf, get_platform_dir os = some pf →
      isFile fs (cd ++ ["tldr-master", "pages", pf, name ++ ".md"]) = false) :
    (isFile fs (cd ++ ["tldr-master", "pages", "common", name ++ ".md"]) = true →
      find_page env fs os name =
        some (cd ++ ["tldr-master", "pages", "common", name ++ ".md"])) ∧
    (isFile fs (cd ++ ["tldr-master", "pages", "common", name ++ ".md"]) = false →
      find_page env fs os name = none) := by
  unfold find_page
  rw [hcd]
  cases hos : get_platform_dir os with
  | none =>
      constructor
      · intro hc
        simp [hc, pathExists_of_isFile hc, List.append_assoc]
      · intro hc
        have := exists_and_isFile fs (cd ++ ["tldr-master", "pages", "common", name ++ ".md"])
        rw [hc] at this
        simp [this, List.append_assoc]
        intro _
        exact hc
  | some pf =>
      have hmiss :
          (pathExists fs (cd ++ ["tldr-master", "pages", pf, name ++ ".md"]) &&
            isFile fs (cd ++ ["tldr-master", "pages", pf, name ++ ".md"])) = false := by
        rw [exists_and_isFile]
        exact hplat pf hos
      constructor
      · intro hc
        simp [hos, hmiss, hc, pathExists_of_isFile hc, List.append_assoc]
      · intro hc
        have hcm := exists_and_isFile fs (cd ++ ["tldr-master", "pages", "common", name ++ ".md"])
        rw [hc] at hcm
        simp [hos, hmiss, hcm, List.append_assoc]
        intro _
        exact hc

/-! ## Claim theorems -/

/-- C1: For every cache root, platform that maps to a directory token, and
page name: if the platform-specific file `root/tldr-master/pages/<token>/<name>.md`
exists and is a regular file, `find_page` returns that platform-specific path
(whatever the state of the `common` directory — in particular even when
`root/tldr-master/pages/common/<name>.md` also exists); being the whole
result, it is never merged with the common file. -/
theorem c1_find_page_platform_wins
    (env : EnvState) (fs : FileSystem) (os : OsType) (name pf : String) (cd : FsPath)
    (hcd : get_cache_dir env fs = .ok cd)
    (hpf : get_platform_dir os = some pf)
    (hfile : isFile fs (cd ++ ["tldr-master", "pages", pf, name ++ ".md"]) = true) :
    find_page env fs os name = some (cd ++ ["tldr-master", "pages", pf, name ++ ".md"]) :=
  find_page_platform_hit hcd hpf hfile

/-- C1 witness: in `sampleFs` both `linux/tar.md` and `common/tar.md` exist;
lookup on Linux returns the platform-specific path. -/
theorem c1_witness :
    find_page sampleEnv sampleFs OsType.Linux "tar" =
      some (["cache"] ++ ["tldr-master", "pages", "linux", "tar" ++ ".md"]) :=
  c1_find_page_platform_wins sampleEnv sampleFs OsType.Linux "tar" "linux" ["cache"]
    (by decide) (by decide) (by decide)

/-- C2: With `$TEALDEER_CACHE_DIR` set to `p`, `get_cache_dir` (the spec's
`resolve_root`) returns exactly `p` iff `p` exists and is a directory;
otherwise it fails with the invalid-override error — an error never produced
when the variable is unset. -/
theorem c2_resolve_root_override
    (env : EnvState) (fs : FileSystem) (p : FsPath)
    (h : env.tealdeer_cache_dir = some p) :
    (get_cache_dir env fs = .ok p ↔ (pathExists fs p = true ∧ isDir fs p = true)) ∧
    ((pathExists fs p && isDir fs p) = false →
      get_cache_dir env fs = .error (.CacheError invalidOverrideMsg)) ∧
    (∀ (env' : EnvState) (fs' : FileSystem), env'.tealdeer_cache_dir = none →
      get_cache_dir env' fs' ≠ .error (.CacheError invalidOverrideMsg)) := by
  refine ⟨?_, fun hbad => get_cache_dir_invalid h hbad,
    fun env' fs' h' => get_cache_dir_unset_ne_invalid h'⟩
  rw [← Bool.and_eq_true]
  cases hc : (pathExists fs p && isDir fs p) with
  | true => simp [get_cache_dir_ok h hc]
  | false =>
      rw [get_cache_dir_invalid h hc]
      simp

/-- C2 witness: a valid override resolves to exactly the override path. -/
theorem c2_witness : get_cache_dir sampleEnv sampleFs = .ok ["cache"] :=
  ((c2_resolve_root_override sampleEnv sampleFs ["cache"] rfl).1).mpr (by decide)

/-- C3: every name listed by `list_pages` originates from a top-level entry
of the pages directory that passes the walk filter: either a regular `.md`
file at depth 1, or a top-level directory named `common` or equal to the
platform token. Hence a name whose only occurrence is under any other
directory is never listed — those directories are pruned without being
entered. -/
theorem c3_list_pages_prunes_foreign_dirs
    (env : EnvState) (fs : FileSystem) (os : OsType) (cd : FsPath) (l : List String)
    (s : String)
    (hcd : get_cache_dir env fs = .ok cd)
    (hl : list_pages env fs os = .ok l)
    (hs : s ∈ l) :
    ∃ e ∈ pagesEntries fs cd,
      should_walk (get_platform_dir os) e = true ∧
      ((∃ fname, e = FSTree.file fname ∧ fileStemExt fname = (s, some "md")) ∨
       (∃ n cs, e = FSTree.dir n cs ∧ (n = "common" ∨ get_platform_dir os = some n) ∧
         s ∈ pageCandidates (walkFiltered (get_platform_dir os) cs))) := by
  rw [list_pages_ok hcd] at hl
  injection hl with hl
  subst hl
  rw [mem_sortDedup, mem_pageCandidates] at hs
  obtain ⟨fname, hmem, hfe⟩ := hs
  rw [mem_walkFiltered] at hmem
  obtain ⟨e, he, hsw, hin⟩ := hmem
  refine ⟨e, he, hsw, ?_⟩
  rw [mem_walkEntry] at hin
  rcases hin with rfl | ⟨n, cs, rfl, hin⟩
  · exact Or.inl ⟨fname, rfl, hfe⟩
  · refine Or.inr ⟨n, cs, rfl, (should_walk_dir_iff _ _ _).mp hsw, ?_⟩
    rw [mem_pageCandidates]
    exact ⟨fname, hin, hfe⟩

/-- C3 witness: the listed name `tar` of `sampleFs` (whose tree also holds a
`windows` directory, invisible on Linux) originates from an allowed top-level
entry. -/
theorem c3_witness :
    ∃ e ∈ pagesEntries sampleFs ["cache"],
      should_walk (get_platform_dir OsType.Linux) e = true ∧
      ((∃ fname, e = FSTree.file fname ∧ fileStemExt fname = ("tar", some "md")) ∨
       (∃ n cs, e = FSTree.dir n cs ∧
         (n = "common" ∨ get_platform_dir OsType.Linux = some n) ∧
         "tar" ∈ pageCandidates (walkFiltered (get_platform_dir OsType.Linux) cs))) :=
  c3_list_pages_prunes_foreign_dirs sampleEnv sampleFs OsType.Linux ["cache"]
    ["ps", "root", "tar"] "tar" (by decide) (by decide) (by decide)

/-- C4: `check_freshness` returns `Missing` when the `tldr-master` marker
under the resolved root has no readable mtime, `Stale(age)` when
`age = now - mtime` strictly exceeds the 30-day threshold 2592000 s, and
`Fresh` otherwise (so age exactly 2592000 is `Fresh`); the classification has
no error outcome, and the model is a pure function. -/
theorem c4_check_freshness_classification
    (env : EnvState) (fs : FileSystem) (mtimes : FsPath → Option Int) (now : Int)
    (cd : FsPath)
    (hcd : get_cache_dir env fs = .ok cd) :
    (mtimes (cd ++ ["tldr-master"]) = none →
      check_freshness env fs mtimes now = .Missing) ∧
    (∀ m, mtimes (cd ++ ["tldr-master"]) = some m →
      (now - m > MAX_CACHE_AGE → check_freshness env fs mtimes now = .Stale (now - m)) ∧
      (now - m ≤ MAX_CACHE_AGE → check_freshness env fs mtimes now = .Fresh)) := by
  unfold check_freshness last_update
  rw [hcd]
  constructor
  · intro h
    simp only [h]
  · intro m h
    simp only [h]
    constructor
    · intro hgt
      rw [if_pos hgt]
    · intro hle
      rw [if_neg (not_lt.mpr hle)]

/-- C4 witness: missing marker, boundary age 2592000 (Fresh), and age
2592001 (Stale). -/
theorem c4_witness :
    check_freshness sampleEnv sampleFs (fun _ => none) 5 = .Missing ∧
    check_freshness sampleEnv sampleFs
      (fun p => if p = ["cache", "tldr-master"] then some 0 else none) 2592000 = .Fresh ∧
    check_freshness sampleEnv sampleFs
      (fun p => if p = ["cache", "tldr-master"] then some 0 else none) 2592001 =
        .Stale 2592001 :=
  ⟨(c4_check_freshness_classification sampleEnv sampleFs (fun _ => none) 5 ["cache"]
      (by decide)).1 rfl,
   ((c4_check_freshness_classification sampleEnv sampleFs
      (fun p => if p = ["cache", "tldr-master"] then some 0 else none) 2592000 ["cache"]
      (by decide)).2 0 (by decide)).2 (by decide),
   ((c4_check_freshness_classification sampleEnv sampleFs
      (fun p => if p = ["cache", "tldr-master"] then some 0 else none) 2592001 ["cache"]
      (by decide)).2 0 (by decide)).1 (by decide)⟩

/-- C5: when the platform probe finds no regular file (or the platform maps
to no token, making the hypothesis vacuous), `find_page` returns the common
path if `common/<name>.md` is a regular file, and `none` — absence, not an
error — when neither probe succeeds. -/
theorem c5_find_page_common_fallback
    (env : EnvState) (fs : FileSystem) (os : OsType) (name : String) (cd : FsPath)
    (hcd : get_cache_dir env fs = .ok cd)
    (hplat : ∀ pf, get_platform_dir os = some pf →
      isFile fs (cd ++ ["tldr-master", "pages", pf, name ++ ".md"]) = false) :
    (isFile fs (cd ++ ["tldr-master", "pages", "common", name ++ ".md"]) = true →
      find_page env fs os name =
        some (cd ++ ["tldr-master", "pages", "common", name ++ ".md"])) ∧
    (isFile fs (cd ++ ["tldr-master", "pages", "common", name ++ ".md"]) = false →
      find_page env fs os name = none) :=
  find_page_common_cases hcd hplat

/-- C5 witness: on OsX (no `osx` directory in `sampleFs`), `tar` falls back
to the common path, and a missing page yields `none`. -/
theorem c5_witness :
    find_page sampleEnv sampleFs OsType.OsX "tar" =
      some (["cache"] ++ ["tldr-master", "pages", "common", "tar" ++ ".md"]) ∧
    find_page sampleEnv sampleFs OsType.OsX "nope" = none :=
  ⟨(c5_find_page_common_fallback sampleEnv sampleFs OsType.OsX "tar" ["cache"]
      (by decide)
      (by intro pf h; injection h with h; subst h; decide)).1 (by decide),
   (c5_find_page_common_fallback sampleEnv sampleFs OsType.OsX "nope" ["cache"]
      (by decide)
      (by intro pf h; injection h with h; subst h; decide)).2 (by decide)⟩

/-- C6: a successful `list_pages` result is lexicographically sorted and
duplicate-free (a name present in both `common` and the platform directory
appears once), and a second call on an unchanged directory tree returns the
same sequence. -/
theorem c6_list_pages_sorted_nodup
    (env : EnvState) (fs : FileSystem) (os : OsType) (l : List String)
    (hl : list_pages env fs os = .ok l) :
    l.Sorted strLe ∧ l.Nodup ∧
      ∀ fs' : FileSystem, fs'.root = fs.root → list_pages env fs' os = .ok l := by
  have hfs : ∀ fs' : FileSystem, fs'.root = fs.root → fs' = fs := by
    intro fs' h
    cases fs'
    cases fs
    simpa using h
  cases hcd : get_cache_dir env fs with
  | error e =>
      rw [list_pages_error hcd] at hl
      exact absurd hl (by simp)
  | ok cd =>
      rw [list_pages_ok hcd] at hl
      injection hl with hl
      subst hl
      have hsorted := List.sorted_insertionSort strLe
        (pageCandidates (walkFiltered (get_platform_dir os) (pagesEntries fs cd)))
      have hlt := dedupConsec_sorted_lt _ hsorted
      refine ⟨hlt.imp (fun h => h.1), hlt.nodup, ?_⟩
      intro fs' h
      rw [hfs fs' h]
      exact list_pages_ok hcd

/-- C6 witness: the Linux listing of `sampleFs` (where `tar` occurs in both
`common` and `linux`) is sorted, duplicate-free and reproducible. -/
theorem c6_witness :
    (["ps", "root", "tar"] : List String).Sorted strLe ∧
    (["ps", "root", "tar"] : List String).Nodup ∧
      ∀ fs' : FileSystem, fs'.root = sampleFs.root →
        list_pages sampleEnv fs' OsType.Linux = .ok ["ps", "root", "tar"] :=
  c6_list_pages_sorted_nodup sampleEnv sampleFs OsType.Linux ["ps", "root", "tar"]
    (by decide)

/-- C7: every name in a successful `list_pages` result is contributed by a
regular file reached by the walk whose extension is exactly `md`
(case-exact, so `.MD` never qualifies), and the name is that file's stem. -/
theorem c7_list_pages_md_only
    (env : EnvState) (fs : FileSystem) (os : OsType) (cd : FsPath) (l : List String)
    (s : String)
    (hcd : get_cache_dir env fs = .ok cd)
    (hl : list_pages env fs os = .ok l)
    (hs : s ∈ l) :
    ∃ fname, FSTree.file fname ∈ walkFiltered (get_platform_dir os) (pagesEntries fs cd) ∧
      (fileStemExt fname).2 = some "md" ∧ (fileStemExt fname).1 = s := by
  rw [list_pages_ok hcd] at hl
  injection hl with hl
  subst hl
  rw [mem_sortDedup, mem_pageCandidates] at hs
  obtain ⟨fname, hmem, hfe⟩ := hs
  exact ⟨fname, hmem, by rw [hfe], by rw [hfe]⟩

/-- C7 witness: the listed name `ps` of `sampleFs` (whose tree also holds
`notes.MD`, which is not listed) comes from a `.md` file. -/
theorem c7_witness :
    ∃ fname,
      FSTree.file fname ∈
        walkFiltered (get_platform_dir OsType.Linux) (pagesEntries sampleFs ["cache"]) ∧
      (fileStemExt fname).2 = some "md" ∧ (fileStemExt fname).1 = "ps" :=
  c7_list_pages_md_only sampleEnv sampleFs OsType.Linux ["cache"] ["ps", "root", "tar"]
    "ps" (by decide) (by decide) (by decide)

/-- C8 counterexample: with an invalid override (`badEnv` points at a missing
path), resolution fails with the invalid-override error, yet `find_page`
returns `none` — the error is silently converted into the absence value, not
surfaced; with a valid override over the same filesystem the page is found,
so the `none` hides an existing page. This refutes the claim that every
operation surfaces `InvalidOverride`. -/
theorem c8_counterexample :
    get_cache_dir badEnv sampleFs = .error (.CacheError invalidOverrideMsg) ∧
    find_page badEnv sampleFs OsType.Linux "tar" = none ∧
    find_page sampleEnv sampleFs OsType.Linux "tar" =
      some ["cache", "tldr-master", "pages", "linux", "tar.md"] :=
  ⟨by decide, by decide, by decide⟩

/-- C8 (amended): under an invalid override, `list_pages` surfaces the
invalid-override error to the caller, while `find_page` converts it into the
absence value `none`. -/
theorem c8_amended_surfacing
    (env : EnvState) (fs : FileSystem) (os : OsType) (name : String) (p : FsPath)
    (h : env.tealdeer_cache_dir = some p)
    (hbad : (pathExists fs p && isDir fs p) = false) :
    list_pages env fs os = .error (.CacheError invalidOverrideMsg) ∧
    find_page env fs os name = none :=
  ⟨list_pages_error (get_cache_dir_invalid h hbad),
   find_page_error (get_cache_dir_invalid h hbad)⟩

/-- C8 witness: the amended behavior at the concrete invalid override. -/
theorem c8_witness :
    list_pages badEnv sampleFs OsType.Linux = .error (.CacheError invalidOverrideMsg) ∧
    find_page badEnv sampleFs OsType.Linux "tar" = none :=
  c8_amended_surfacing badEnv sampleFs OsType.Linux "tar" ["missing"] rfl (by decide)

/-- C9: `locate_for_edit` computes the common-directory path
`root/tldr-master/pages/common/<name>.md` — the same path `find_page`'s
common probe checks — ignoring the filesystem entirely: no existence check,
no failure, a pure path computation. -/
theorem c9_locate_for_edit_pure (fs fs' : FileSystem) (root : FsPath) (name : String) :
    locate_for_edit fs root name =
      root ++ ["tldr-master", "pages", "common", name ++ ".md"] ∧
    locate_for_edit fs root name = locate_for_edit fs' root name :=
  ⟨rfl, rfl⟩

/-- C10: a regular file with extension exactly `.md` sitting directly under
the pages root (depth 1, outside `common` and the platform directory) has its
stem included in a successful `list_pages` result, because the traversal
filter admits every file node. -/
theorem c10_list_pages_includes_depth1_md
    (env : EnvState) (fs : FileSystem) (os : OsType) (cd : FsPath) (l : List String)
    (fname : String)
    (hcd : get_cache_dir env fs = .ok cd)
    (hl : list_pages env fs os = .ok l)
    (hmem : FSTree.file fname ∈ pagesEntries fs cd)
    (hext : (fileStemExt fname).2 = some "md") :
    (fileStemExt fname).1 ∈ l := by
  rw [list_pages_ok hcd] at hl
  injection hl with hl
  subst hl
  rw [mem_sortDedup, mem_pageCandidates]
  refine ⟨fname, ?_, Prod.ext rfl hext⟩
  rw [mem_walkFiltered]
  refine ⟨FSTree.file fname, hmem, should_walk_file _ _, ?_⟩
  rw [mem_walkEntry]
  exact Or.inl rfl

/-- C10 witness: `root.md` sits directly under the pages root of `sampleFs`
and its stem `root` is listed. -/
theorem c10_witness :
    (fileStemExt "root.md").1 ∈ (["ps", "root", "tar"] : List String) :=
  c10_list_pages_includes_depth1_md sampleEnv sampleFs OsType.Linux ["cache"]
    ["ps", "root", "tar"] "root.md" (by decide) (by decide) (by decide) (by decide)
